import Mathlib

set_option maxRecDepth 30000

/-!
Shallow embedding of the `dhgroup14` Go package (blinded Diffie-Hellman key
agreement over the RFC 3526 2048-bit MODP group 14), together with theorems
settling the specification's claims against it.

Byte slices are modelled as `List Nat` (each entry a byte value), the random
source `io.Reader` as a `List Nat` stream of the bytes it will produce:
`io.ReadFull` of `n` bytes succeeds exactly when at least `n` bytes remain,
consuming them, and fails (is propagated as `RandomSourceFailure`) otherwise.
`math/big` integers are modelled as `Nat` / `Int`; `big.Int.Exp` is modelled
by a square-and-multiply `powMod` (with the modular-inverse handling of a
negative exponent that `math/big` documents, returning `none` for the nil
result when the base is not invertible).
-/

namespace DHGroup14

/-- Big-endian interpretation of a byte list as an unsigned integer, the model
of `big.Int.SetBytes`. -/
def bytesToNat (l : List Nat) : Nat :=
  l.foldl (fun acc b => acc * 256 + b) 0

/-- Every entry of the list is a genuine byte value. -/
def ValidBytes (l : List Nat) : Prop :=
  ∀ b ∈ l, b < 256

instance (l : List Nat) : Decidable (ValidBytes l) :=
  List.decidableBAll _ l

/-- Big-endian encoding of `n` into exactly `k` bytes (left-zero-padded).
Models `make([]byte, k)` followed by `copy(result[k-len(rb):], r.Bytes())`,
which coincide whenever `n < 256^k`. -/
def natToBytesBE : Nat → Nat → List Nat
  | 0, _ => []
  | k + 1, n => natToBytesBE k (n / 256) ++ [n % 256]

/-- Binary length by splitting the number at bit `2^f`; correct for
`n < 2^(2^f)`. -/
def bitLenAux : Nat → Nat → Nat
  | 0, n => if n = 0 then 0 else 1
  | f + 1, n =>
    let high := n / 2 ^ 2 ^ f
    if high = 0 then bitLenAux f n else bitLenAux f high + 2 ^ f

/-- Number of bits of `n` (`0` for `n = 0`), the model of `big.Int.BitLen` on
the values of this package, all of which are below `2^2048 = 2^(2^11)`. -/
def bitLen (n : Nat) : Nat :=
  bitLenAux 11 n

/-- Fuelled square-and-multiply modular exponentiation. -/
def powModAux (m : Nat) : Nat → Nat → Nat → Nat
  | 0, _, _ => 1 % m
  | fuel + 1, a, b =>
    if b = 0 then 1 % m
    else
      let r := powModAux m fuel (a * a % m) (b / 2)
      if b % 2 = 1 then r * a % m else r

/-- `a ^ b % m` by square-and-multiply, the model of `big.Int.Exp` on a
non-negative exponent (which `math/big` also computes by repeated squaring). -/
def powMod (a b m : Nat) : Nat :=
  powModAux m (bitLen b) a b

/-- A modular inverse of `x` modulo `m` via the extended Euclidean algorithm
(meaningful when `Nat.gcd (x % m) m = 1`). -/
def invMod (x m : Nat) : Nat :=
  (Nat.gcdA (x % m) m % (m : Int)).toNat % m

/-- Model of `big.Int.Exp x y m` with positive modulus `m`: a negative
exponent exponentiates the modular inverse of `x` by `|y|` when that inverse
exists, and yields the nil result (`none`) otherwise. -/
def goExp (x : Nat) (y : Int) (m : Nat) : Option Nat :=
  if 0 ≤ y then some (powMod x y.toNat m)
  else if Nat.gcd (x % m) m = 1 then some (powMod (invMod x m) (-y).toNat m)
  else none

/-- `PrivateKeySize`: private key size in bytes. -/
def PrivateKeySize : Nat := 32

/-- `PublicKeySize`: public key size in bytes. -/
def PublicKeySize : Nat := 256

/-- `SharedKeySize`: shared key size in bytes. -/
def SharedKeySize : Nat := 256

/-- The byte string of the RFC 3526 group 14 modulus, exactly as passed to
`big.Int.SetBytes` in the source. -/
def modulusBytes : List Nat :=
  [0xff, 0xff, 0xff, 0xff, 0xff, 0xff, 0xff, 0xff, 0xc9, 0x0f, 0xda, 0xa2,
   0x21, 0x68, 0xc2, 0x34, 0xc4, 0xc6, 0x62, 0x8b, 0x80, 0xdc, 0x1c, 0xd1,
   0x29, 0x02, 0x4e, 0x08, 0x8a, 0x67, 0xcc, 0x74, 0x02, 0x0b, 0xbe, 0xa6,
   0x3b, 0x13, 0x9b, 0x22, 0x51, 0x4a, 0x08, 0x79, 0x8e, 0x34, 0x04, 0xdd,
   0xef, 0x95, 0x19, 0xb3, 0xcd, 0x3a, 0x43, 0x1b, 0x30, 0x2b, 0x0a, 0x6d,
   0xf2, 0x5f, 0x14, 0x37, 0x4f, 0xe1, 0x35, 0x6d, 0x6d, 0x51, 0xc2, 0x45,
   0xe4, 0x85, 0xb5, 0x76, 0x62, 0x5e, 0x7e, 0xc6, 0xf4, 0x4c, 0x42, 0xe9,
   0xa6, 0x37, 0xed, 0x6b, 0x0b, 0xff, 0x5c, 0xb6, 0xf4, 0x06, 0xb7, 0xed,
   0xee, 0x38, 0x6b, 0xfb, 0x5a, 0x89, 0x9f, 0xa5, 0xae, 0x9f, 0x24, 0x11,
   0x7c, 0x4b, 0x1f, 0xe6, 0x49, 0x28, 0x66, 0x51, 0xec, 0xe4, 0x5b, 0x3d,
   0xc2, 0x00, 0x7c, 0xb8, 0xa1, 0x63, 0xbf, 0x05, 0x98, 0xda, 0x48, 0x36,
   0x1c, 0x55, 0xd3, 0x9a, 0x69, 0x16, 0x3f, 0xa8, 0xfd, 0x24, 0xcf, 0x5f,
   0x83, 0x65, 0x5d, 0x23, 0xdc, 0xa3, 0xad, 0x96, 0x1c, 0x62, 0xf3, 0x56,
   0x20, 0x85, 0x52, 0xbb, 0x9e, 0xd5, 0x29, 0x07, 0x70, 0x96, 0x96, 0x6d,
   0x67, 0x0c, 0x35, 0x4e, 0x4a, 0xbc, 0x98, 0x04, 0xf1, 0x74, 0x6c, 0x08,
   0xca, 0x18, 0x21, 0x7c, 0x32, 0x90, 0x5e, 0x46, 0x2e, 0x36, 0xce, 0x3b,
   0xe3, 0x9e, 0x77, 0x2c, 0x18, 0x0e, 0x86, 0x03, 0x9b, 0x27, 0x83, 0xa2,
   0xec, 0x07, 0xa2, 0x8f, 0xb5, 0xc5, 0x5d, 0xf0, 0x6f, 0x4c, 0x52, 0xc9,
   0xde, 0x2b, 0xcb, 0xf6, 0x95, 0x58, 0x17, 0x18, 0x39, 0x95, 0x49, 0x7c,
   0xea, 0x95, 0x6a, 0xe5, 0x15, 0xd2, 0x26, 0x18, 0x98, 0xfa, 0x05, 0x10,
   0x15, 0x72, 0x8e, 0x5a, 0x8a, 0xac, 0xaa, 0x68, 0xff, 0xff, 0xff, 0xff,
   0xff, 0xff, 0xff, 0xff]

/-- The 2048-bit RFC 3526 group 14 prime modulus. -/
def modulus : Nat := bytesToNat modulusBytes

/-- `generator = 2`. -/
def generator : Nat := 2

/-- `twoExp256 = 2^256`. -/
def twoExp256 : Nat := 2 ^ 256

/-- The error outcomes of the package; each constructor corresponds to one
`errors.New` site of the source (`RandomSourceFailure` to a propagated
random-source error, `ExpNilResult` to the nil result of `big.Int.Exp` on a
non-invertible base with negative exponent, which the code would dereference —
proved unreachable below). -/
inductive DHError where
  | InvalidPrivateKeySize
  | InvalidPublicKeySize
  | PublicKeyOutOfRange
  | ResultOverflow
  | RandomSourceFailure
  | ExpNilResult
  deriving DecidableEq, Repr

/-- The exponent `priv` after the four `Add`s: `bytesToUint(privateKey) + 2^258`
(the constant `2^256` added four times). -/
def trueExponent (privateKey : List Nat) : Int :=
  (bytesToNat privateKey : Int) + (twoExp256 : Int) + (twoExp256 : Int)
    + (twoExp256 : Int) + (twoExp256 : Int)

/-- The blinding exponent: `bytesToUint(blindingBytes) + 2^256`. -/
def blindingOf (blindingBytes : List Nat) : Int :=
  (bytesToNat blindingBytes : Int) + (twoExp256 : Int)

/-- The blinded remainder exponent `privBlinded = priv - blinding`, the value
computed at the subtraction step of the engine. -/
def privBlinded (privateKey blindingBytes : List Nat) : Int :=
  trueExponent privateKey - blindingOf blindingBytes

/-- The blinded modular exponentiation engine. Reads 32 bytes of blinding
randomness from `rand`, computes `r1 = a^blinding mod modulus` and
`r2 = a^privBlinded mod modulus`, multiplies and reduces, checks the bit
length of the result against the modulus, and encodes the result as 256
big-endian left-zero-padded bytes. -/
def blindedModExp (rand : List Nat) (a : Nat) (privateKey : List Nat) :
    Except DHError (List Nat) :=
  if PrivateKeySize ≤ rand.length then
    match goExp a (blindingOf (rand.take PrivateKeySize)) modulus,
          goExp a (privBlinded privateKey (rand.take PrivateKeySize)) modulus with
    | some r1, some r2 =>
      if bitLen (r1 * r2 % modulus) > bitLen modulus then
        Except.error DHError.ResultOverflow
      else
        Except.ok (natToBytesBE PublicKeySize (r1 * r2 % modulus))
    | _, _ => Except.error DHError.ExpNilResult
  else
    Except.error DHError.RandomSourceFailure

/-- `GeneratePublicKey`: validates the private-key size, then runs the engine
with `base = generator`. -/
def GeneratePublicKey (rand : List Nat) (privateKey : List Nat) :
    Except DHError (List Nat) :=
  if privateKey.length ≠ PrivateKeySize then
    Except.error DHError.InvalidPrivateKeySize
  else
    blindedModExp rand generator privateKey

/-- `GenerateKeyPair`: draws 32 random bytes as the private key, then derives
the public key. Mirrors the Go triple return `(publicKey, privateKey, err)`,
with `none` for a nil slice. -/
def GenerateKeyPair (rand : List Nat) :
    Option (List Nat) × Option (List Nat) × Option DHError :=
  if PrivateKeySize ≤ rand.length then
    let privateKey := rand.take PrivateKeySize
    match GeneratePublicKey (rand.drop PrivateKeySize) privateKey with
    | Except.ok publicKey => (some publicKey, some privateKey, none)
    | Except.error e => (none, none, some e)
  else
    (none, none, some DHError.RandomSourceFailure)

/-- `SharedKey`: validates both sizes and the peer key's range
(`bp.Cmp(modulus) > -1`, i.e. `bp ≥ modulus`, is rejected), then runs the
engine with `base = theirPublicKey`. -/
def SharedKey (rand theirPublicKey myPrivateKey : List Nat) :
    Except DHError (List Nat) :=
  if theirPublicKey.length ≠ PublicKeySize then
    Except.error DHError.InvalidPublicKeySize
  else if myPrivateKey.length ≠ PrivateKeySize then
    Except.error DHError.InvalidPrivateKeySize
  else
    let bp := bytesToNat theirPublicKey
    if modulus ≤ bp then
      Except.error DHError.PublicKeyOutOfRange
    else
      blindedModExp rand bp myPrivateKey

/-! ### Arithmetic facts about the helper functions -/

theorem foldl_bytes_acc (l : List Nat) :
    ∀ acc : Nat,
      List.foldl (fun acc b => acc * 256 + b) acc l
        = acc * 256 ^ l.length + List.foldl (fun acc b => acc * 256 + b) 0 l := by
  induction l with
  | nil => intro acc; simp
  | cons x xs ih =>
    intro acc
    simp only [List.foldl_cons, List.length_cons]
    rw [ih (acc * 256 + x), ih (0 * 256 + x)]
    ring

theorem bytesToNat_cons (x : Nat) (xs : List Nat) :
    bytesToNat (x :: xs) = x * 256 ^ xs.length + bytesToNat xs := by
  unfold bytesToNat
  simp only [List.foldl_cons]
  rw [foldl_bytes_acc xs (0 * 256 + x)]
  ring_nf

theorem bytesToNat_concat (l : List Nat) (b : Nat) :
    bytesToNat (l ++ [b]) = bytesToNat l * 256 + b := by
  unfold bytesToNat
  rw [List.foldl_append]
  simp

theorem bytesToNat_lt (l : List Nat) (h : ValidBytes l) :
    bytesToNat l < 256 ^ l.length := by
  induction l with
  | nil => simp [bytesToNat]
  | cons x xs ih =>
    rw [bytesToNat_cons]
    have hx : x < 256 := h x (List.mem_cons_self x xs)
    have hxs : bytesToNat xs < 256 ^ xs.length :=
      ih (fun b hb => h b (List.mem_cons_of_mem x hb))
    simp only [List.length_cons]
    calc x * 256 ^ xs.length + bytesToNat xs
        < x * 256 ^ xs.length + 256 ^ xs.length := by omega
      _ = (x + 1) * 256 ^ xs.length := by ring
      _ ≤ 256 * 256 ^ xs.length := Nat.mul_le_mul_right _ (by omega)
      _ = 256 ^ (xs.length + 1) := by ring

theorem natToBytesBE_length : ∀ k n : Nat, (natToBytesBE k n).length = k := by
  intro k
  induction k with
  | zero => intro n; rfl
  | succ k ih => intro n; simp [natToBytesBE, ih]

theorem bytesToNat_natToBytesBE :
    ∀ k n : Nat, n < 256 ^ k → bytesToNat (natToBytesBE k n) = n := by
  intro k
  induction k with
  | zero =>
    intro n hn
    simp only [pow_zero, Nat.lt_one_iff] at hn
    simp [natToBytesBE, bytesToNat, hn]
  | succ k ih =>
    intro n hn
    have hdiv : n / 256 < 256 ^ k := by
      have h : (256 : Nat) ^ (k + 1) = 256 ^ k * 256 := pow_succ 256 k
      omega
    rw [natToBytesBE, bytesToNat_concat, ih (n / 256) hdiv]
    omega

theorem powModAux_eq (m : Nat) :
    ∀ fuel a b : Nat, b < 2 ^ fuel → powModAux m fuel a b = a ^ b % m := by
  intro fuel
  induction fuel with
  | zero =>
    intro a b hb
    simp only [pow_zero, Nat.lt_one_iff] at hb
    simp [powModAux, hb]
  | succ f ih =>
    intro a b hb
    by_cases hb0 : b = 0
    · simp [powModAux, hb0]
    · have h2 : b < 2 ^ f * 2 := by
        have h := pow_succ 2 f
        omega
      have hdiv : b / 2 < 2 ^ f := by omega
      have hrec := ih (a * a % m) (b / 2) hdiv
      have hsq : (a * a % m) ^ (b / 2) % m = a ^ (b / 2 + b / 2) % m := by
        rw [← Nat.pow_mod, mul_pow, ← pow_add]
      rw [powModAux, if_neg hb0, hrec, hsq]
      by_cases hpar : b % 2 = 1
      · rw [if_pos hpar, Nat.mod_mul_mod, ← pow_succ]
        have hb' : b / 2 + b / 2 + 1 = b := by omega
        rw [hb']
      · rw [if_neg hpar]
        have hb' : b / 2 + b / 2 = b := by omega
        rw [hb']

theorem lt_two_pow_bitLenAux :
    ∀ f n : Nat, n < 2 ^ 2 ^ f → n < 2 ^ bitLenAux f n := by
  intro f
  induction f with
  | zero =>
    intro n hn
    norm_num at hn
    rcases (by omega : n = 0 ∨ n = 1) with h | h <;> simp [bitLenAux, h]
  | succ f ih =>
    intro n hn
    have hK : 0 < 2 ^ 2 ^ f := pow_pos (by norm_num) _
    by_cases h0 : n / 2 ^ 2 ^ f = 0
    · rw [bitLenAux, if_pos h0]
      exact ih n ((Nat.div_eq_zero_iff hK).mp h0)
    · rw [bitLenAux, if_neg h0]
      have hKK : (2 : Nat) ^ 2 ^ (f + 1) = 2 ^ 2 ^ f * 2 ^ 2 ^ f := by
        rw [← pow_add]
        congr 1
        rw [pow_succ]
        ring
      have hhlt : n / 2 ^ 2 ^ f < 2 ^ 2 ^ f := by
        rw [Nat.div_lt_iff_lt_mul hK]
        rw [hKK] at hn
        exact hn
      have hih := ih (n / 2 ^ 2 ^ f) hhlt
      have hdm := Nat.div_add_mod n (2 ^ 2 ^ f)
      have hmod := Nat.mod_lt n hK
      calc n = 2 ^ 2 ^ f * (n / 2 ^ 2 ^ f) + n % 2 ^ 2 ^ f := hdm.symm
        _ < 2 ^ 2 ^ f * (n / 2 ^ 2 ^ f) + 2 ^ 2 ^ f := by omega
        _ = (n / 2 ^ 2 ^ f + 1) * 2 ^ 2 ^ f := by ring
        _ ≤ 2 ^ bitLenAux f (n / 2 ^ 2 ^ f) * 2 ^ 2 ^ f :=
            Nat.mul_le_mul_right _ (by omega)
        _ = 2 ^ (bitLenAux f (n / 2 ^ 2 ^ f) + 2 ^ f) := by rw [pow_add]

theorem bitLenAux_le :
    ∀ f n k : Nat, n < 2 ^ 2 ^ f → n < 2 ^ k → bitLenAux f n ≤ k := by
  intro f
  induction f with
  | zero =>
    intro n k hn hk
    by_cases h0 : n = 0
    · simp [bitLenAux, h0]
    · rw [bitLenAux, if_neg h0]
      by_contra hlt
      have hk0 : k = 0 := by omega
      rw [hk0, pow_zero] at hk
      omega
  | succ f ih =>
    intro n k hn hk
    have hK : 0 < 2 ^ 2 ^ f := pow_pos (by norm_num) _
    by_cases h0 : n / 2 ^ 2 ^ f = 0
    · rw [bitLenAux, if_pos h0]
      exact ih n k ((Nat.div_eq_zero_iff hK).mp h0) hk
    · rw [bitLenAux, if_neg h0]
      have hKn : 2 ^ 2 ^ f ≤ n := by
        by_contra hlt
        exact h0 (Nat.div_eq_of_lt (by omega))
      have hfk : 2 ^ f < k := by
        have h1 : (2 : Nat) ^ 2 ^ f < 2 ^ k := lt_of_le_of_lt hKn hk
        exact (Nat.pow_lt_pow_iff_right (by norm_num)).mp h1
      have hKK : (2 : Nat) ^ 2 ^ (f + 1) = 2 ^ 2 ^ f * 2 ^ 2 ^ f := by
        rw [← pow_add]
        congr 1
        rw [pow_succ]
        ring
      have hhlt : n / 2 ^ 2 ^ f < 2 ^ 2 ^ f := by
        rw [Nat.div_lt_iff_lt_mul hK]
        rw [hKK] at hn
        exact hn
      have hsplit : (2 : Nat) ^ k = 2 ^ (k - 2 ^ f) * 2 ^ 2 ^ f := by
        rw [← pow_add]
        congr 1
        omega
      have hhk : n / 2 ^ 2 ^ f < 2 ^ (k - 2 ^ f) := by
        rw [Nat.div_lt_iff_lt_mul hK, ← hsplit]
        exact hk
      have := ih (n / 2 ^ 2 ^ f) (k - 2 ^ f) hhlt hhk
      omega

theorem bitLen_le_bitLen (a m : Nat) (ha : a < m) (hm : m < 2 ^ 2048) :
    bitLen a ≤ bitLen m := by
  have h2048 : (2 : Nat) ^ 2 ^ 11 = 2 ^ 2048 := by norm_num
  have hm' : m < 2 ^ 2 ^ 11 := by rw [h2048]; exact hm
  have ha' : a < 2 ^ 2 ^ 11 := lt_trans ha hm'
  exact bitLenAux_le 11 a (bitLen m) ha' (lt_trans ha (lt_two_pow_bitLenAux 11 m hm'))

theorem powMod_eq (a b m : Nat) (hb : b < 2 ^ 2048) : powMod a b m = a ^ b % m := by
  have h2048 : (2 : Nat) ^ 2 ^ 11 = 2 ^ 2048 := by norm_num
  have hb' : b < 2 ^ 2 ^ 11 := by rw [h2048]; exact hb
  exact powModAux_eq m (bitLen b) a b (lt_two_pow_bitLenAux 11 b hb')

/-! ### The exponent split -/

theorem goExp_of_nonneg (x : Nat) (y : Int) (m : Nat) (hy : 0 ≤ y) :
    goExp x y m = some (powMod x y.toNat m) := by
  unfold goExp
  rw [if_pos hy]

theorem blindingOf_nonneg (bb : List Nat) : 0 ≤ blindingOf bb := by
  unfold blindingOf twoExp256
  omega

theorem blindingOf_toNat (bb : List Nat) :
    (blindingOf bb).toNat = bytesToNat bb + 2 ^ 256 := by
  unfold blindingOf twoExp256
  omega

theorem privBlinded_pos (pk bb : List Nat) (hb : bytesToNat bb < 2 ^ 256) :
    0 < privBlinded pk bb := by
  unfold privBlinded trueExponent blindingOf twoExp256
  omega

theorem privBlinded_toNat (pk bb : List Nat) (hb : bytesToNat bb < 2 ^ 256) :
    (privBlinded pk bb).toNat = bytesToNat pk + 3 * 2 ^ 256 - bytesToNat bb := by
  unfold privBlinded trueExponent blindingOf twoExp256
  omega

theorem modulusBytes_valid : ValidBytes modulusBytes := by decide

theorem modulus_pos : 0 < modulus := by decide

theorem one_lt_modulus : 1 < modulus := by decide

theorem modulus_lt : modulus < 2 ^ 2048 := by
  have h1 : modulus < 256 ^ modulusBytes.length :=
    bytesToNat_lt modulusBytes modulusBytes_valid
  have h2 : modulusBytes.length = 256 := by rfl
  rw [h2] at h1
  calc modulus < 256 ^ 256 := h1
    _ ≤ 2 ^ 2048 := by norm_num

theorem valid_take (rand : List Nat) (n : Nat) (h : ValidBytes rand) :
    ValidBytes (rand.take n) :=
  fun b hb => h b (List.take_subset n rand hb)

theorem valid_drop (rand : List Nat) (n : Nat) (h : ValidBytes rand) :
    ValidBytes (rand.drop n) :=
  fun b hb => h b (List.drop_subset n rand hb)

theorem bytesToNat_take_lt (rand : List Nat) (hrv : ValidBytes rand)
    (hrl : 32 ≤ rand.length) : bytesToNat (rand.take 32) < 2 ^ 256 := by
  have hv := valid_take rand 32 hrv
  have hlen : (rand.take 32).length = 32 := by
    rw [List.length_take]; omega
  have h := bytesToNat_lt (rand.take 32) hv
  rw [hlen] at h
  calc bytesToNat (rand.take 32) < 256 ^ 32 := h
    _ = 2 ^ 256 := by norm_num

/-! ### Engine correctness: blinding is transparent -/

theorem blindedModExp_ok (rand : List Nat) (a : Nat) (pk : List Nat)
    (hrv : ValidBytes rand) (hrl : 32 ≤ rand.length)
    (hp : bytesToNat pk < 2 ^ 256) :
    blindedModExp rand a pk =
      Except.ok (natToBytesBE 256 (a ^ (2 ^ 258 + bytesToNat pk) % modulus)) := by
  have hbv : bytesToNat (rand.take PrivateKeySize) < 2 ^ 256 :=
    bytesToNat_take_lt rand hrv hrl
  have hBnn := blindingOf_nonneg (rand.take PrivateKeySize)
  have hRnn := le_of_lt (privBlinded_pos pk (rand.take PrivateKeySize) hbv)
  unfold blindedModExp
  rw [if_pos (show PrivateKeySize ≤ rand.length from hrl)]
  rw [goExp_of_nonneg a _ modulus hBnn, goExp_of_nonneg a _ modulus hRnn]
  dsimp only
  have hBlt : (blindingOf (rand.take PrivateKeySize)).toNat < 2 ^ 2048 := by
    rw [blindingOf_toNat]
    have h1 : (2 : Nat) ^ 257 < 2 ^ 2048 := by norm_num
    have h2 : (2 : Nat) ^ 257 = 2 ^ 256 + 2 ^ 256 := by rw [pow_succ]; ring
    omega
  have hRlt : (privBlinded pk (rand.take PrivateKeySize)).toNat < 2 ^ 2048 := by
    rw [privBlinded_toNat pk (rand.take PrivateKeySize) hbv]
    have h1 : (2 : Nat) ^ 259 < 2 ^ 2048 := by norm_num
    have h2 : (2 : Nat) ^ 259 = 8 * 2 ^ 256 := by
      rw [show (259 : Nat) = 3 + 256 from rfl, pow_add]
      ring
    omega
  rw [powMod_eq _ _ _ hBlt, powMod_eq _ _ _ hRlt]
  have hexp : (blindingOf (rand.take PrivateKeySize)).toNat
      + (privBlinded pk (rand.take PrivateKeySize)).toNat
      = 2 ^ 258 + bytesToNat pk := by
    rw [blindingOf_toNat, privBlinded_toNat pk (rand.take PrivateKeySize) hbv]
    have h258 : (2 : Nat) ^ 258 = 4 * 2 ^ 256 := by
      rw [show (258 : Nat) = 2 + 256 from rfl, pow_add]
      ring
    omega
  rw [← Nat.mul_mod, ← pow_add, hexp]
  have hrmod : a ^ (2 ^ 258 + bytesToNat pk) % modulus < modulus :=
    Nat.mod_lt _ modulus_pos
  have hble := bitLen_le_bitLen _ modulus hrmod modulus_lt
  rw [if_neg (by omega)]
  rfl

theorem blindedModExp_short (rand : List Nat) (a : Nat) (pk : List Nat)
    (h : rand.length < 32) :
    blindedModExp rand a pk = Except.error DHError.RandomSourceFailure := by
  have h32 : PrivateKeySize = 32 := rfl
  unfold blindedModExp
  rw [if_neg (show ¬ PrivateKeySize ≤ rand.length by omega)]

/-! ### Characterizations of the public operations -/

theorem bytesToNat_len32_lt (pk : List Nat) (hl : pk.length = 32)
    (hv : ValidBytes pk) : bytesToNat pk < 2 ^ 256 := by
  have h := bytesToNat_lt pk hv
  rw [hl] at h
  calc bytesToNat pk < 256 ^ 32 := h
    _ = 2 ^ 256 := by norm_num

theorem GeneratePublicKey_eq (rand pk : List Nat) :
    GeneratePublicKey rand pk =
      if pk.length ≠ 32 then Except.error DHError.InvalidPrivateKeySize
      else blindedModExp rand 2 pk := rfl

theorem SharedKey_eq (rand pub pk : List Nat) :
    SharedKey rand pub pk =
      if pub.length ≠ 256 then Except.error DHError.InvalidPublicKeySize
      else if pk.length ≠ 32 then Except.error DHError.InvalidPrivateKeySize
      else if modulus ≤ bytesToNat pub then Except.error DHError.PublicKeyOutOfRange
      else blindedModExp rand (bytesToNat pub) pk := rfl

theorem GenerateKeyPair_eq (rand : List Nat) :
    GenerateKeyPair rand =
      if 32 ≤ rand.length then
        match GeneratePublicKey (rand.drop 32) (rand.take 32) with
        | Except.ok publicKey => (some publicKey, some (rand.take 32), none)
        | Except.error e => (none, none, some e)
      else (none, none, some DHError.RandomSourceFailure) := rfl

/-- The engine can only fail with a random-source failure, the defensive
overflow check, or the (modelled) nil result of `big.Int.Exp` — never with one
of the size or range errors of the callers. -/
theorem blindedModExp_error_cases (rand : List Nat) (a : Nat) (pk : List Nat)
    (e : DHError) (h : blindedModExp rand a pk = Except.error e) :
    e = DHError.RandomSourceFailure ∨ e = DHError.ResultOverflow ∨
      e = DHError.ExpNilResult := by
  unfold blindedModExp at h
  split at h
  · split at h
    · split at h
      · injection h with h
        exact Or.inr (Or.inl h.symm)
      · exact Except.noConfusion h
    · injection h with h
      exact Or.inr (Or.inr h.symm)
  · injection h with h
    exact Or.inl h.symm

/-! ### Claim theorems -/

/-- Claim C1: blinding is mathematically transparent. For every base
`0 ≤ base < modulus`, every 32-byte secret exponent, and every choice of 32
blinding bytes read from the random source, the engine succeeds and its result
is exactly `base^(2^258 + bytesToUint(secretExponentBytes)) mod modulus`
encoded as 256 big-endian left-zero-padded bytes; in particular two engine
calls with the same base and secret exponent but different blinding draws
return byte-identical results. -/
theorem blinding_transparent (a : Nat) (rand rand2 pk : List Nat)
    (ha : a < modulus) (hpkl : pk.length = 32) (hpkv : ValidBytes pk)
    (hrl : 32 ≤ rand.length) (hrv : ValidBytes rand)
    (hrl2 : 32 ≤ rand2.length) (hrv2 : ValidBytes rand2) :
    blindedModExp rand a pk =
      Except.ok (natToBytesBE 256 (a ^ (2 ^ 258 + bytesToNat pk) % modulus)) ∧
    blindedModExp rand2 a pk = blindedModExp rand a pk := by
  have hp := bytesToNat_len32_lt pk hpkl hpkv
  refine ⟨blindedModExp_ok rand a pk hrv hrl hp, ?_⟩
  rw [blindedModExp_ok rand a pk hrv hrl hp, blindedModExp_ok rand2 a pk hrv2 hrl2 hp]

/-- Witness for C1 at base 2, secret key bytes all 5, and the two distinct
blinding draws all-0 and all-255. -/
theorem blinding_transparent_witness :
    blindedModExp (List.replicate 32 0) 2 (List.replicate 32 5) =
      Except.ok (natToBytesBE 256
        (2 ^ (2 ^ 258 + bytesToNat (List.replicate 32 5)) % modulus)) ∧
    blindedModExp (List.replicate 32 255) 2 (List.replicate 32 5) =
      blindedModExp (List.replicate 32 0) 2 (List.replicate 32 5) :=
  blinding_transparent 2 (List.replicate 32 0) (List.replicate 32 255)
    (List.replicate 32 5) (by decide) (by decide) (by decide) (by decide)
    (by decide) (by decide) (by decide)

/-- Claim C3 is false on this code: there is no choice of 32 secret-exponent
bytes and 32 blinding bytes for which the remainder exponent
`privBlinded = trueExponent - blinding` is negative, because the true exponent
is at least `2^258` while the blinding value is below `2^257`. -/
theorem remainder_never_negative :
    ¬ ∃ pk bb : List Nat, pk.length = 32 ∧ bb.length = 32 ∧
      ValidBytes pk ∧ ValidBytes bb ∧ privBlinded pk bb < 0 := by
  rintro ⟨pk, bb, hpl, hbl, hpv, hbv, hneg⟩
  have hb := bytesToNat_len32_lt bb hbl hbv
  have := privBlinded_pos pk bb hb
  omega

/-- Claim C3 (amended): for every secret-exponent byte string and every
32-byte blinding draw, the remainder exponent computed at the subtraction step
is strictly positive — the subtraction never goes below zero. -/
theorem remainder_positive (pk bb : List Nat) (hbl : bb.length = 32)
    (hbv : ValidBytes bb) : 0 < privBlinded pk bb :=
  privBlinded_pos pk bb (bytesToNat_len32_lt bb hbl hbv)

/-- Witness for the amended C3 at the all-zero secret key and the largest
32-byte blinding draw. -/
theorem remainder_positive_witness :
    0 < privBlinded (List.replicate 32 0) (List.replicate 32 255) :=
  remainder_positive (List.replicate 32 0) (List.replicate 32 255)
    (by decide) (by decide)

/-- Claim C4: the ResultOverflow defensive check is unreachable. For every
base below the modulus, every 32-byte secret exponent and every blinding draw,
the engine's result value has bit length at most that of the modulus, and any
error the engine returns is a random-source failure. -/
theorem result_overflow_unreachable (a : Nat) (rand pk : List Nat)
    (e : DHError) (ha : a < modulus) (hpkl : pk.length = 32)
    (hpkv : ValidBytes pk) (hrv : ValidBytes rand)
    (he : blindedModExp rand a pk = Except.error e) :
    bitLen (a ^ (2 ^ 258 + bytesToNat pk) % modulus) ≤ bitLen modulus ∧
    e = DHError.RandomSourceFailure := by
  constructor
  · exact bitLen_le_bitLen _ modulus (Nat.mod_lt _ modulus_pos) modulus_lt
  · by_cases h32 : 32 ≤ rand.length
    · rw [blindedModExp_ok rand a pk hrv h32 (bytesToNat_len32_lt pk hpkl hpkv)] at he
      exact Except.noConfusion he
    · rw [blindedModExp_short rand a pk (by omega)] at he
      injection he with he
      exact he.symm

/-- Witness for C4 at base 2, the all-zero key, and an empty random source
(the only failing source). -/
theorem result_overflow_unreachable_witness :
    bitLen (2 ^ (2 ^ 258 + bytesToNat (List.replicate 32 0)) % modulus)
      ≤ bitLen modulus ∧
    DHError.RandomSourceFailure = DHError.RandomSourceFailure :=
  result_overflow_unreachable 2 [] (List.replicate 32 0)
    DHError.RandomSourceFailure (by decide) (by decide) (by decide)
    (by decide) rfl

/-- Claim C5: for every 32-byte private key and a random source that supplies
its 32 bytes, GeneratePublicKey succeeds and returns exactly 256 bytes whose
big-endian value is strictly less than the modulus. -/
theorem generate_public_key_ok (rand pk : List Nat)
    (hpkl : pk.length = 32) (hpkv : ValidBytes pk)
    (hrl : 32 ≤ rand.length) (hrv : ValidBytes rand) :
    ∃ pub, GeneratePublicKey rand pk = Except.ok pub ∧
      pub.length = 256 ∧ bytesToNat pub < modulus := by
  have hp := bytesToNat_len32_lt pk hpkl hpkv
  have hlt : 2 ^ (2 ^ 258 + bytesToNat pk) % modulus < 256 ^ 256 := by
    have h1 : 2 ^ (2 ^ 258 + bytesToNat pk) % modulus < modulus :=
      Nat.mod_lt _ modulus_pos
    have h2 := modulus_lt
    have h3 : (256 : Nat) ^ 256 = 2 ^ 2048 := by norm_num
    omega
  refine ⟨natToBytesBE 256 (2 ^ (2 ^ 258 + bytesToNat pk) % modulus), ?_,
    natToBytesBE_length 256 _, ?_⟩
  · rw [GeneratePublicKey_eq, if_neg (by omega)]
    exact blindedModExp_ok rand 2 pk hrv hrl hp
  · rw [bytesToNat_natToBytesBE 256 _ hlt]
    exact Nat.mod_lt _ modulus_pos

/-- Witness for C5 at the all-zero private key and an all-zero random
source. -/
theorem generate_public_key_ok_witness :
    ∃ pub, GeneratePublicKey (List.replicate 32 0) (List.replicate 32 0)
        = Except.ok pub ∧ pub.length = 256 ∧ bytesToNat pub < modulus :=
  generate_public_key_ok (List.replicate 32 0) (List.replicate 32 0)
    (by decide) (by decide) (by decide) (by decide)

/-- Claim C6: for a 256-byte peer key and 32-byte private key, SharedKey fails
with PublicKeyOutOfRange exactly when the peer key's value is at least the
modulus, and otherwise proceeds to the engine with the peer key's value as
base. -/
theorem shared_key_range_check (rand pub pk : List Nat)
    (hpub : pub.length = 256) (hpk : pk.length = 32) :
    (SharedKey rand pub pk = Except.error DHError.PublicKeyOutOfRange ↔
      modulus ≤ bytesToNat pub) ∧
    (bytesToNat pub < modulus →
      SharedKey rand pub pk = blindedModExp rand (bytesToNat pub) pk) := by
  rw [SharedKey_eq, if_neg (by omega), if_neg (by omega)]
  constructor
  · constructor
    · intro h
      by_contra hlt
      rw [if_neg hlt] at h
      rcases blindedModExp_error_cases rand (bytesToNat pub) pk _ h with h' | h' | h' <;>
        exact DHError.noConfusion h'
    · intro h
      rw [if_pos h]
  · intro hlt
    rw [if_neg (by omega)]

/-- Witness for C6 at the peer key encoding the modulus itself. -/
theorem shared_key_range_check_witness :
    (SharedKey [] (natToBytesBE 256 modulus) (List.replicate 32 0) =
        Except.error DHError.PublicKeyOutOfRange ↔
      modulus ≤ bytesToNat (natToBytesBE 256 modulus)) ∧
    (bytesToNat (natToBytesBE 256 modulus) < modulus →
      SharedKey [] (natToBytesBE 256 modulus) (List.replicate 32 0) =
        blindedModExp [] (bytesToNat (natToBytesBE 256 modulus))
          (List.replicate 32 0)) :=
  shared_key_range_check [] (natToBytesBE 256 modulus) (List.replicate 32 0)
    (by decide) (by decide)

/-- Claim C7: GeneratePublicKey fails with InvalidPrivateKeySize exactly when
the private key is not 32 bytes; SharedKey fails with InvalidPublicKeySize
exactly when the peer key is not 256 bytes, and (for a 256-byte peer key) with
InvalidPrivateKeySize exactly when the private key is not 32 bytes. The
statements hold for every random source, so the failures are independent of —
and consume none of — the randomness. -/
theorem size_validation (rand pub pk : List Nat) :
    (GeneratePublicKey rand pk = Except.error DHError.InvalidPrivateKeySize ↔
      pk.length ≠ 32) ∧
    (SharedKey rand pub pk = Except.error DHError.InvalidPublicKeySize ↔
      pub.length ≠ 256) ∧
    (pub.length = 256 →
      (SharedKey rand pub pk = Except.error DHError.InvalidPrivateKeySize ↔
        pk.length ≠ 32)) := by
  refine ⟨⟨?_, ?_⟩, ⟨?_, ?_⟩, fun hp256 => ⟨?_, ?_⟩⟩
  · intro h
    by_contra h32
    rw [GeneratePublicKey_eq, if_neg (show ¬ pk.length ≠ 32 by omega)] at h
    rcases blindedModExp_error_cases rand 2 pk _ h with h' | h' | h' <;>
      exact DHError.noConfusion h'
  · intro h
    rw [GeneratePublicKey_eq, if_pos h]
  · intro h
    by_contra h256
    rw [SharedKey_eq, if_neg (show ¬ pub.length ≠ 256 by omega)] at h
    by_cases h32 : pk.length ≠ 32
    · rw [if_pos h32] at h
      injection h with h
      exact DHError.noConfusion h
    · rw [if_neg h32] at h
      by_cases hr : modulus ≤ bytesToNat pub
      · rw [if_pos hr] at h
        injection h with h
        exact DHError.noConfusion h
      · rw [if_neg hr] at h
        rcases blindedModExp_error_cases rand (bytesToNat pub) pk _ h
          with h' | h' | h' <;> exact DHError.noConfusion h'
  · intro h
    rw [SharedKey_eq, if_pos h]
  · intro h
    by_contra h32
    rw [SharedKey_eq, if_neg (by omega),
        if_neg (show ¬ pk.length ≠ 32 by omega)] at h
    by_cases hr : modulus ≤ bytesToNat pub
    · rw [if_pos hr] at h
      injection h with h
      exact DHError.noConfusion h
    · rw [if_neg hr] at h
      rcases blindedModExp_error_cases rand (bytesToNat pub) pk _ h
        with h' | h' | h' <;> exact DHError.noConfusion h'
  · intro h
    rw [SharedKey_eq, if_neg (by omega), if_pos h]

/-- Claim C9: degenerate peer keys pass validation: the all-zero 256-byte peer
key is accepted and yields 256 zero bytes, and the peer key encoding 1 is
accepted and yields the 256-byte encoding of 1. -/
theorem degenerate_peer_keys (rand pk : List Nat)
    (hpk : pk.length = 32) (hpkv : ValidBytes pk)
    (hrl : 32 ≤ rand.length) (hrv : ValidBytes rand) :
    SharedKey rand (List.replicate 256 0) pk =
      Except.ok (List.replicate 256 0) ∧
    SharedKey rand (natToBytesBE 256 1) pk = Except.ok (natToBytesBE 256 1) := by
  have hp := bytesToNat_len32_lt pk hpk hpkv
  have hz : bytesToNat (List.replicate 256 0) = 0 := by decide
  have hone : bytesToNat (natToBytesBE 256 1) = 1 := by decide
  have hEpos : 2 ^ 258 + bytesToNat pk ≠ 0 := by omega
  constructor
  · rw [SharedKey_eq, if_neg (by simp), if_neg (by omega), hz,
        if_neg (by have := modulus_pos; omega),
        blindedModExp_ok rand 0 pk hrv hrl hp, zero_pow hEpos, Nat.zero_mod]
    have hzz : natToBytesBE 256 0 = List.replicate 256 0 := by decide
    rw [hzz]
  · rw [SharedKey_eq, if_neg (by simp [natToBytesBE_length]), if_neg (by omega),
        hone, if_neg (by have := one_lt_modulus; omega),
        blindedModExp_ok rand 1 pk hrv hrl hp, one_pow,
        Nat.mod_eq_of_lt one_lt_modulus]

/-- Witness for C9 at the all-zero private key and all-zero random source. -/
theorem degenerate_peer_keys_witness :
    SharedKey (List.replicate 32 0) (List.replicate 256 0)
        (List.replicate 32 0) = Except.ok (List.replicate 256 0) ∧
    SharedKey (List.replicate 32 0) (natToBytesBE 256 1) (List.replicate 32 0)
      = Except.ok (natToBytesBE 256 1) :=
  degenerate_peer_keys (List.replicate 32 0) (List.replicate 32 0)
    (by decide) (by decide) (by decide) (by decide)

/-- Claim C8: GenerateKeyPair draws the first 32 bytes of the random source as
the private key, propagates random-source failures (of either the private-key
read or the engine's blinding read), on success returns that 32-byte private
key together with the derived 256-byte public key, and on any error returns
nil for both keys. -/
theorem generate_key_pair_spec (rand : List Nat) (hrv : ValidBytes rand) :
    (rand.length < 32 →
      GenerateKeyPair rand = (none, none, some DHError.RandomSourceFailure)) ∧
    (32 ≤ rand.length → rand.length < 64 →
      GenerateKeyPair rand = (none, none, some DHError.RandomSourceFailure)) ∧
    (64 ≤ rand.length → ∃ pub,
      GenerateKeyPair rand = (some pub, some (rand.take 32), none) ∧
      (rand.take 32).length = 32 ∧ pub.length = 256 ∧
      GeneratePublicKey (rand.drop 32) (rand.take 32) = Except.ok pub) ∧
    (((GenerateKeyPair rand).2.2).isSome = true →
      (GenerateKeyPair rand).1 = none ∧ (GenerateKeyPair rand).2.1 = none) := by
  refine ⟨?_, ?_, ?_, ?_⟩
  · intro h
    rw [GenerateKeyPair_eq, if_neg (by omega)]
  · intro h32 h64
    have hdlen : (rand.drop 32).length < 32 := by
      rw [List.length_drop]; omega
    have htlen : (rand.take 32).length = 32 := by
      rw [List.length_take]; omega
    have hgen : GeneratePublicKey (rand.drop 32) (rand.take 32) =
        Except.error DHError.RandomSourceFailure := by
      rw [GeneratePublicKey_eq, if_neg (by omega)]
      exact blindedModExp_short _ _ _ hdlen
    rw [GenerateKeyPair_eq, if_pos h32, hgen]
  · intro h64
    have htlen : (rand.take 32).length = 32 := by
      rw [List.length_take]; omega
    have hdlen : 32 ≤ (rand.drop 32).length := by
      rw [List.length_drop]; omega
    have htv := valid_take rand 32 hrv
    have hdv := valid_drop rand 32 hrv
    have hgen : GeneratePublicKey (rand.drop 32) (rand.take 32) =
        Except.ok (natToBytesBE 256
          (2 ^ (2 ^ 258 + bytesToNat (rand.take 32)) % modulus)) := by
      rw [GeneratePublicKey_eq, if_neg (by omega)]
      exact blindedModExp_ok (rand.drop 32) 2 (rand.take 32) hdv hdlen
        (bytesToNat_len32_lt (rand.take 32) htlen htv)
    refine ⟨natToBytesBE 256
      (2 ^ (2 ^ 258 + bytesToNat (rand.take 32)) % modulus), ?_, htlen,
      natToBytesBE_length 256 _, hgen⟩
    rw [GenerateKeyPair_eq, if_pos (by omega), hgen]
  · by_cases h32 : 32 ≤ rand.length
    · cases hg : GeneratePublicKey (rand.drop 32) (rand.take 32) with
      | ok pub =>
        rw [GenerateKeyPair_eq, if_pos h32, hg]
        intro h
        exact absurd h (by simp)
      | error e =>
        rw [GenerateKeyPair_eq, if_pos h32, hg]
        intro h
        exact ⟨rfl, rfl⟩
    · rw [GenerateKeyPair_eq, if_neg h32]
      intro h
      exact ⟨rfl, rfl⟩

/-- Witness for C8 at a 64-byte random source of value-7 bytes. -/
theorem generate_key_pair_spec_witness :
    ((List.replicate 64 7).length < 32 →
      GenerateKeyPair (List.replicate 64 7)
        = (none, none, some DHError.RandomSourceFailure)) ∧
    (32 ≤ (List.replicate 64 7).length → (List.replicate 64 7).length < 64 →
      GenerateKeyPair (List.replicate 64 7)
        = (none, none, some DHError.RandomSourceFailure)) ∧
    (64 ≤ (List.replicate 64 7).length → ∃ pub,
      GenerateKeyPair (List.replicate 64 7)
          = (some pub, some ((List.replicate 64 7).take 32), none) ∧
      ((List.replicate 64 7).take 32).length = 32 ∧ pub.length = 256 ∧
      GeneratePublicKey ((List.replicate 64 7).drop 32)
        ((List.replicate 64 7).take 32) = Except.ok pub) ∧
    (((GenerateKeyPair (List.replicate 64 7)).2.2).isSome = true →
      (GenerateKeyPair (List.replicate 64 7)).1 = none ∧
      (GenerateKeyPair (List.replicate 64 7)).2.1 = none) :=
  generate_key_pair_spec (List.replicate 64 7) (by decide)

/-- Claim C2: Diffie-Hellman agreement. For any two 32-byte private keys whose
public keys were produced by successful GeneratePublicKey calls, and for every
choice of blinding randomness in all four calls, the two SharedKey derivations
succeed and return the same 256-byte shared key. -/
theorem shared_key_agreement (privA privB randA randB randC randD : List Nat)
    (hA : privA.length = 32) (hAv : ValidBytes privA)
    (hB : privB.length = 32) (hBv : ValidBytes privB)
    (hAl : 32 ≤ randA.length) (hArv : ValidBytes randA)
    (hBl : 32 ≤ randB.length) (hBrv : ValidBytes randB)
    (hCl : 32 ≤ randC.length) (hCrv : ValidBytes randC)
    (hDl : 32 ≤ randD.length) (hDrv : ValidBytes randD) :
    ∃ pubA pubB sk,
      GeneratePublicKey randA privA = Except.ok pubA ∧
      GeneratePublicKey randB privB = Except.ok pubB ∧
      SharedKey randC pubB privA = Except.ok sk ∧
      SharedKey randD pubA privB = Except.ok sk := by
  have h3 : (256 : Nat) ^ 256 = 2 ^ 2048 := by norm_num
  have hpubA : GeneratePublicKey randA privA =
      Except.ok (natToBytesBE 256
        (2 ^ (2 ^ 258 + bytesToNat privA) % modulus)) := by
    rw [GeneratePublicKey_eq, if_neg (by omega)]
    exact blindedModExp_ok randA 2 privA hArv hAl
      (bytesToNat_len32_lt privA hA hAv)
  have hpubB : GeneratePublicKey randB privB =
      Except.ok (natToBytesBE 256
        (2 ^ (2 ^ 258 + bytesToNat privB) % modulus)) := by
    rw [GeneratePublicKey_eq, if_neg (by omega)]
    exact blindedModExp_ok randB 2 privB hBrv hBl
      (bytesToNat_len32_lt privB hB hBv)
  have key : ∀ (rand pk : List Nat) (y : Nat), pk.length = 32 → ValidBytes pk →
      32 ≤ rand.length → ValidBytes rand →
      SharedKey rand (natToBytesBE 256 (2 ^ y % modulus)) pk =
        Except.ok (natToBytesBE 256
          (2 ^ (y * (2 ^ 258 + bytesToNat pk)) % modulus)) := by
    intro rand pk y hl hv hrl hrv
    have hmod : 2 ^ y % modulus < modulus := Nat.mod_lt _ modulus_pos
    have hlt : 2 ^ y % modulus < 256 ^ 256 := by
      have := modulus_lt
      omega
    rw [SharedKey_eq, if_neg (by simp [natToBytesBE_length]),
        if_neg (by omega), bytesToNat_natToBytesBE 256 _ hlt,
        if_neg (by omega),
        blindedModExp_ok rand _ pk hrv hrl (bytesToNat_len32_lt pk hl hv)]
    have hpw : (2 ^ y % modulus) ^ (2 ^ 258 + bytesToNat pk) % modulus
        = 2 ^ (y * (2 ^ 258 + bytesToNat pk)) % modulus := by
      rw [← Nat.pow_mod, ← pow_mul]
    rw [hpw]
  refine ⟨natToBytesBE 256 (2 ^ (2 ^ 258 + bytesToNat privA) % modulus),
    natToBytesBE 256 (2 ^ (2 ^ 258 + bytesToNat privB) % modulus),
    natToBytesBE 256 (2 ^ ((2 ^ 258 + bytesToNat privB)
      * (2 ^ 258 + bytesToNat privA)) % modulus),
    hpubA, hpubB, ?_, ?_⟩
  · exact key randC privA (2 ^ 258 + bytesToNat privB) hA hAv hCl hCrv
  · rw [key randD privB (2 ^ 258 + bytesToNat privA) hB hBv hDl hDrv,
        Nat.mul_comm (2 ^ 258 + bytesToNat privA) (2 ^ 258 + bytesToNat privB)]

/-- Witness for C2 at the all-zero and all-one private keys with four
distinct random sources. -/
theorem shared_key_agreement_witness :
    ∃ pubA pubB sk,
      GeneratePublicKey (List.replicate 32 2) (List.replicate 32 0)
        = Except.ok pubA ∧
      GeneratePublicKey (List.replicate 32 3) (List.replicate 32 1)
        = Except.ok pubB ∧
      SharedKey (List.replicate 32 4) pubB (List.replicate 32 0)
        = Except.ok sk ∧
      SharedKey (List.replicate 32 5) pubA (List.replicate 32 1)
        = Except.ok sk :=
  shared_key_agreement (List.replicate 32 0) (List.replicate 32 1)
    (List.replicate 32 2) (List.replicate 32 3) (List.replicate 32 4)
    (List.replicate 32 5) (by decide) (by decide) (by decide) (by decide)
    (by decide) (by decide) (by decide) (by decide) (by decide) (by decide)
    (by decide) (by decide)

end DHGroup14
